import Mathlib

namespace GitZip

/-! Character-list string primitives. Every JavaScript string operation the
source uses is modelled by a structurally recursive function over the
character list of a Lean string, so that concrete runs of the model reduce
inside the kernel. -/

/-- Whether the first list leads the second (character-wise). -/
def chLead : List Char → List Char → Bool
  | [], _ => true
  | _ :: _, [] => false
  | a :: as, b :: bs => decide (a = b) && chLead as bs

/-- JavaScript `s.startsWith(pre)`. -/
def jsStartsWith (s pre : String) : Bool :=
  chLead pre.data s.data

/-- JavaScript `s.endsWith(suf)`. -/
def jsEndsWith (s suf : String) : Bool :=
  chLead suf.data.reverse s.data.reverse

/-- Drop the first `n` characters (JavaScript `s.substring(n)`). -/
def jsDrop (s : String) (n : Nat) : String :=
  ⟨s.data.drop n⟩

/-- Drop the last `n` characters (JavaScript `s.slice(0, -n)`). -/
def jsDropRight (s : String) (n : Nat) : String :=
  ⟨s.data.take (s.data.length - n)⟩

/-- JavaScript `s.trim()`. -/
def jsTrim (s : String) : String :=
  ⟨((s.data.dropWhile Char.isWhitespace).reverse.dropWhile Char.isWhitespace).reverse⟩

/-- Helper of `splitCh`: split the remaining characters at the separator,
the reversed current chunk accumulating in front. -/
def splitChAux (sep : Char) : List Char → List Char → List String
  | [], acc => [⟨acc.reverse⟩]
  | c :: rest, acc =>
    if c = sep then ⟨acc.reverse⟩ :: splitChAux sep rest []
    else splitChAux sep rest (c :: acc)

/-- Split a string at a one-character separator (JavaScript `s.split(sep)`,
`String.splitOn` for the separators used by the source). -/
def splitCh (sep : Char) (s : String) : List String :=
  splitChAux sep s.data []

/-- Whether the string contains the character (`indexOf(c) !== -1`). -/
def jsHasChar (s : String) (c : Char) : Bool :=
  s.data.any (fun d => decide (d = c))

/-- The part of the string before the first occurrence of the character
(`substring(0, indexOf(c))`). -/
def jsBefore (s : String) (c : Char) : String :=
  ⟨s.data.takeWhile (fun d => decide (d ≠ c))⟩

/-- Join segments with slashes (the inverse of `splitCh '/'`). -/
def joinSegs : List String → String
  | [] => ""
  | [s] => s
  | s :: rest => s ++ "/" ++ joinSegs rest

/-- Sibling names are pairwise distinct. -/
def namesNodup : List String → Bool
  | [] => true
  | n :: rest => !(rest.any (fun m => decide (m = n))) && namesNodup rest

/-- Model of a Node.js filesystem path (POSIX convention, `path.sep` is the
forward slash). A path string is represented by its absoluteness flag and the
list of slash-separated segments; the string form is the segments joined with
a slash, preceded by a slash when absolute. -/
structure FsPath where
  abs : Bool
  segs : List String
deriving DecidableEq

/-- One step of POSIX `path.normalize` at segment level: empty and dot
segments vanish, a dot-dot segment pops the previous segment (absolute paths
cannot climb above the root). The accumulator holds segments in reverse. -/
def normStep (abs : Bool) (acc : List String) (s : String) : List String :=
  if s = "" ∨ s = "." then acc
  else if s = ".." then
    match acc with
    | [] => if abs then [] else [".."]
    | a :: rest => if a = ".." then ".." :: a :: rest else rest
  else s :: acc

/-- Segment-level POSIX `path.normalize` (resolution of `.`, `..` and empty
segments). -/
def normalizeSegs (abs : Bool) (l : List String) : List String :=
  (l.foldl (normStep abs) []).reverse

/-- Drop the longest common leading run of two segment lists, returning what
remains of each; used by the model of `path.relative`. -/
def dropCommon : List String → List String → List String × List String
  | [], bs => ([], bs)
  | a :: as, [] => (a :: as, [])
  | a :: as, b :: bs => if a = b then dropCommon as bs else (a :: as, b :: bs)

/-- Model of POSIX `path.relative(from, to)` for two absolute paths: both
sides are normalized, the common leading segments are dropped, and every
remaining `from` segment becomes a dot-dot step. -/
def pathRelative (fromP toP : FsPath) : List String :=
  let f := normalizeSegs true fromP.segs
  let t := normalizeSegs true toP.segs
  let p := dropCommon f t
  List.replicate p.1.length ".." ++ p.2

/-- Model of POSIX `path.basename`: the last non-empty segment (trailing
slashes produce empty segments, which are skipped), or the empty string. -/
def basename (p : FsPath) : String :=
  ((p.segs.reverse.dropWhile (fun s => decide (s = ""))).head?).getD ""

/-- Test of the source's drive-letter regex on the first characters of a
string: an ASCII letter followed by a colon. -/
def driveLikeStr (s : String) : Bool :=
  match s.data with
  | c₁ :: c₂ :: _ => c₁.isAlpha && decide (c₂ = ':')
  | _ => false

/-- The JavaScript test `relativePath.startsWith('..')` on the slash-joined
form of a relative segment list: the first segment starts with two dots. -/
def relStartsDotDot (rel : List String) : Bool :=
  jsStartsWith ((rel.head?).getD "") ".."

/-- The drive-letter regex applied to the slash-joined form of a relative
segment list: it can only match inside the first segment. -/
def relDriveLike (rel : List String) : Bool :=
  driveLikeStr ((rel.head?).getD "")

/-- Slash-joined string form of a path. -/
def joinStr (p : FsPath) : String :=
  (if p.abs then "/" else "") ++ joinSegs p.segs

/-- Model of the source's strip of the leading separator run (the regex
replace that deletes every leading slash or backslash character). -/
def stripLeadSlashes (s : String) : String :=
  ⟨s.data.dropWhile (fun c => decide (c = '/') || decide (c = '\\'))⟩

/-- Model of `processPath` from `createZipFromFolder` (GZipEdit.js). For an
absolute input the function returns `path.relative(folderAbsPath, input)`
unless that relative form starts with two dots or looks drive-prefixed, in
which case the input's basename is returned. Only non-absolute inputs reach
the compression-mode switch: there the source slices
`folderAbsPath.length` characters off the input string and prepends the
folder (or custom) name for the `custom` and default (`with`) modes. The
archive-internal result string is represented by its slash-split segment
list. -/
def processPath (mode : String) (customName : Option String)
    (folderAbs : FsPath) (originalPath : FsPath) : List String :=
  if originalPath.abs then
    let rel := pathRelative folderAbs originalPath
    if relStartsDotDot rel || relDriveLike rel then [basename originalPath]
    else rel
  else
    let folderStr := joinStr folderAbs
    match mode with
    | "only" =>
      splitCh '/' (stripLeadSlashes (jsDrop (joinStr originalPath) folderStr.length))
    | "custom" =>
      let folderName := (((splitCh '/' folderStr).reverse).head?).getD ""
      let r := stripLeadSlashes (jsDrop (joinStr originalPath) folderStr.length)
      let nm := match customName with
        | some c => if c = "" then folderName else c
        | none => folderName
      splitCh '/' (nm ++ (if r = "" then "" else "/" ++ r))
    | _ =>
      let folderName := (((splitCh '/' folderStr).reverse).head?).getD ""
      let r := stripLeadSlashes (jsDrop (joinStr originalPath) folderStr.length)
      splitCh '/' (folderName ++ (if r = "" then "" else "/" ++ r))

/-- A rule held by the underlying ignore-pattern matcher: a pattern string
and whether the rule is negated (came from a `!` line). -/
structure IgnoreRule where
  neg : Bool
  pat : String
deriving DecidableEq

/-- Modelled from the spec: line admission of the underlying ignore-pattern
matcher (the npm `ignore` package, an external collaborator). A line is
skipped when blank or when its first non-whitespace character is `#`; a
leading `!` negates the rule and is stripped from the pattern. -/
def mkRule (line : String) : Option IgnoreRule :=
  let t := jsTrim line
  if t = "" ∨ jsStartsWith t "#" then none
  else if jsStartsWith t "!" then some ⟨true, jsDrop t 1⟩
  else some ⟨false, t⟩

/-- Modelled from the spec: the rule list the underlying matcher derives from
a rule-file text handed to a single `add` call. -/
def rulesOfText (text : String) : List IgnoreRule :=
  (splitCh '\n' text).filterMap mkRule

/-- Modelled from the spec: whether the pattern segments occur at the head of
the remaining path segments; a directory-only rule must leave at least one
further segment. -/
def segsMatchAt (pat rest : List String) (dirOnly : Bool) : Bool :=
  decide (rest.take pat.length = pat) && decide (pat.length ≤ rest.length)
    && (!dirOnly || decide (pat.length < rest.length))

/-- Modelled from the spec: pattern-against-path test of the underlying
matcher under standard ignore-pattern semantics for literal patterns. A
trailing slash makes the rule match only proper directory contents; a
pattern containing a slash (or starting with one) is anchored at the root,
otherwise it may match at any depth. Glob wildcards are not modelled; every
pattern considered here is literal. -/
def matchPattern (pat : String) (p : List String) : Bool :=
  let dirOnly := jsEndsWith pat "/"
  let core₁ := if dirOnly then jsDropRight pat 1 else pat
  let anchoredSlash := jsStartsWith core₁ "/"
  let core := if anchoredSlash then jsDrop core₁ 1 else core₁
  let patSegs := splitCh '/' core
  if anchoredSlash || decide (1 < patSegs.length) then segsMatchAt patSegs p dirOnly
  else (List.range (p.length + 1)).any (fun i => segsMatchAt patSegs (p.drop i) dirOnly)

/-- Modelled from the spec: the decision of the underlying matcher on a path,
with later rules overriding earlier ones (a later matching negated rule
re-includes, a later matching plain rule re-ignores). -/
def ignoresRules (rules : List IgnoreRule) (p : List String) : Bool :=
  rules.foldl (fun acc r => if matchPattern r.pat p then !r.neg else acc) false

/-- Model of the compatibility-variant synthesis of `parseGitignore`
(GZipEdit.js): the four ambiguous anchoring shapes of a cleaned rule part
each contribute the listed widened variants, in source order. -/
def ruleVariants (rulePart : String) : List String :=
  (if jsEndsWith rulePart "/" && !jsStartsWith rulePart "/" then
      [jsDropRight rulePart 1] else [])
  ++ (if !jsEndsWith rulePart "/" && !jsStartsWith rulePart "/" then
      [rulePart ++ "/"] else [])
  ++ (if jsStartsWith rulePart "/" && !jsEndsWith rulePart "/" then
      [jsDrop rulePart 1, jsDrop rulePart 1 ++ "/"] else [])
  ++ (if jsStartsWith rulePart "/" && jsEndsWith rulePart "/" then
      [jsDropRight (jsDrop rulePart 1) 1, jsDrop rulePart 1, jsDropRight rulePart 1]
     else [])

/-- Model of the per-line processing of `parseGitignore`: blank and comment
lines contribute nothing; otherwise the line is trimmed, truncated at an
inline `#` and re-trimmed, and the surviving rule part yields its
compatibility variants. -/
def lineVariants (line : String) : List String :=
  let trimmed := jsTrim line
  if trimmed = "" ∨ jsStartsWith trimmed "#" then []
  else
    let rulePart :=
      if jsHasChar trimmed '#' then jsTrim (jsBefore trimmed '#')
      else trimmed
    if rulePart = "" then [] else ruleVariants rulePart

/-- Model of the additional compatibility rules `parseGitignore` registers
after the original rule text. -/
def additionalRules (text : String) : List String :=
  (splitCh '\n' text).flatMap lineVariants

/-- Model of `parseGitignore` (GZipEdit.js). The read result of the rule
file is passed explicitly: `none` models an unreadable file, in which case
the catch branch returns a fresh empty `ignore()` instance (no rules).
Otherwise the original text is registered first and the synthesized
compatibility variants are registered after it, each admitted by the
underlying matcher's own line processing (`mkRule`). -/
def parseGitignore (readResult : Option String) : List IgnoreRule :=
  match readResult with
  | none => []
  | some text => rulesOfText text ++ (additionalRules text).filterMap mkRule

/-- Decidable equality of `Except` results, by cases on the constructors. -/
instance {ε α : Type} [DecidableEq ε] [DecidableEq α] : DecidableEq (Except ε α) :=
  fun a b =>
    match a, b with
    | .ok x, .ok y =>
      if h : x = y then .isTrue (by rw [h]) else .isFalse (fun hc => h (Except.ok.inj hc))
    | .error x, .error y =>
      if h : x = y then .isTrue (by rw [h]) else .isFalse (fun hc => h (Except.error.inj hc))
    | .ok _, .error _ => .isFalse (fun hc => Except.noConfusion hc)
    | .error _, .ok _ => .isFalse (fun hc => Except.noConfusion hc)

/-- Model of a filesystem subtree: a file carries its byte content (as a
string) and whether a read of it succeeds; a directory carries its named
children in `readDirectory` order. -/
inductive FsNode where
  | file (content : String) (readable : Bool)
  | dir (children : List (String × FsNode))

/-- One descriptor produced by `getAllFiles` (GZipEdit.js): absolute path,
root-relative path (slash-separated in the source, segment list here) and a
directory flag. -/
structure Entry where
  path : FsPath
  relativePath : List String
  isDirectory : Bool
deriving DecidableEq

/-- Absolute path of the object at root-relative position `rel`. -/
def childAbs (rootAbs : FsPath) (rel : List String) : FsPath :=
  ⟨rootAbs.abs, rootAbs.segs ++ rel⟩

mutual
/-- Model of `getAllFiles` (GZipEdit.js) called on the directory at
root-relative position `rel`: the directory pushes an Entry for itself
unless it is the enumeration root (`dir !== baseDirToUse`, i.e. `rel = []`),
then walks its children in order; a file child is pushed directly, a
directory child is handled by the recursive call. A node that is not a
directory yields nothing (the source's `readDirectory` fails and the catch
returns the accumulator unchanged). -/
def getAllFilesNode (rootAbs : FsPath) (rel : List String) : FsNode → List Entry
  | .file _ _ => []
  | .dir cs =>
    (if rel = [] then [] else [⟨childAbs rootAbs rel, rel, true⟩]) ++
      getAllFilesKids rootAbs rel cs

/-- Child loop of `getAllFiles`: file children become file Entries, directory
children are enumerated recursively (which emits their own Entry first). -/
def getAllFilesKids (rootAbs : FsPath) (rel : List String) :
    List (String × FsNode) → List Entry
  | [] => []
  | (n, c) :: rest =>
    (match c with
     | .file _ _ => [⟨childAbs rootAbs (rel ++ [n]), rel ++ [n], false⟩]
     | .dir _ => getAllFilesNode rootAbs (rel ++ [n]) c) ++
      getAllFilesKids rootAbs rel rest
end

/-- Model of the top-level `getAllFiles(folderAbsPath)` call. -/
def getAllFiles (rootAbs : FsPath) (tree : FsNode) : List Entry :=
  getAllFilesNode rootAbs [] tree

/-- Resolve a root-relative segment path inside a tree (the filesystem the
`vscode.workspace.fs` capability exposes beneath the archive root). -/
def lookupNode : FsNode → List String → Option FsNode
  | t, [] => some t
  | .file _ _, _ :: _ => none
  | .dir cs, n :: more =>
    match cs.find? (fun c => decide (c.1 = n)) with
    | some c => lookupNode c.2 more
    | none => none

/-- Model of `vscode.workspace.fs.readFile` on the object at root-relative
position `rel`: succeeds with the content for a readable file, fails
otherwise. Enumerated entries satisfy `path = root ++ relativePath`, so the
source's read of the absolute entry path is the read of its root-relative
position. -/
def fsRead (tree : FsNode) (rel : List String) : Except String String :=
  match lookupNode tree rel with
  | some (.file c true) => .ok c
  | some (.file _ false) => .error "cannot read file"
  | _ => .error "file not found"

/-- One archive-container entry: internal path (segments of its slash-joined
name), directory flag (a `zip.folder` addition), content. -/
structure ZipEntry where
  name : List String
  isDir : Bool
  content : String
deriving DecidableEq

/-- The source test `relativePath === '.git' || relativePath.startsWith('.git/')`
on the slash-joined relative path. -/
def relIsDotGit (rel : List String) : Bool :=
  decide (rel = [".git"]) ||
    (decide (rel.head? = some ".git") && decide (2 ≤ rel.length))

/-- Per-entry loop of `createZipFromFolder` (GZipEdit.js): poll the
cancellation token, apply the Git-mode exclusions in source order, map the
path, add a folder entry for directories, read and add file content
otherwise (with the `flat` basename override). Entries accumulate in reverse
and counters mirror `processed`/`skipped`. A failed file read escapes the
loop: the source has no per-entry catch here. -/
def buildLoop (tree : FsNode) (folderAbs : FsPath) (mode : String)
    (customName : Option String) (gitExclusionMode : String)
    (hasGit hasGitignore : Bool) (ignoreRules : Option (List IgnoreRule))
    (token : Nat → Bool) :
    List Entry → Nat → Nat → Nat → List ZipEntry →
    Except String (List ZipEntry × Nat × Nat)
  | [], _, processed, skipped, acc => .ok (acc.reverse, processed, skipped)
  | e :: rest, i, processed, skipped, acc =>
    if token i then .error "Compression cancelled"
    else if decide (gitExclusionMode ≠ "include_all")
        && decide (gitExclusionMode = "exclude_git")
        && hasGit && relIsDotGit e.relativePath then
      buildLoop tree folderAbs mode customName gitExclusionMode hasGit hasGitignore
        ignoreRules token rest (i + 1) processed (skipped + 1) acc
    else if decide (gitExclusionMode ≠ "include_all")
        && decide (gitExclusionMode = "exclude_git")
        && hasGitignore && decide (e.relativePath = [".gitignore"]) then
      buildLoop tree folderAbs mode customName gitExclusionMode hasGit hasGitignore
        ignoreRules token rest (i + 1) processed (skipped + 1) acc
    else if decide (gitExclusionMode ≠ "include_all")
        && (match ignoreRules with
            | some ir => ignoresRules ir e.relativePath
            | none => false) then
      buildLoop tree folderAbs mode customName gitExclusionMode hasGit hasGitignore
        ignoreRules token rest (i + 1) processed (skipped + 1) acc
    else
      let zipPath := processPath mode customName folderAbs e.path
      if e.isDirectory then
        buildLoop tree folderAbs mode customName gitExclusionMode hasGit hasGitignore
          ignoreRules token rest (i + 1) (processed + 1) skipped
          (⟨zipPath, true, ""⟩ :: acc)
      else
        match fsRead tree e.relativePath with
        | .error msg => .error msg
        | .ok content =>
          let zipPath₂ :=
            if decide (mode = "flat") then [((zipPath.reverse).head?).getD ""] else zipPath
          buildLoop tree folderAbs mode customName gitExclusionMode hasGit hasGitignore
            ignoreRules token rest (i + 1) (processed + 1) skipped
            (⟨zipPath₂, false, content⟩ :: acc)

/-- Model of `createZipFromFolder` (GZipEdit.js) from the Git detection
through the final write. Preflight output-path resolution is outside the
model; `.git`/`.gitignore` detection is `checkGitFiles` (a stat on the
tree), the ignore matcher is built by `parseGitignore` from the read result
of `.gitignore`, and the entry loop is `buildLoop` over `getAllFiles`. A
success value is the archive written to the destination together with the
processed and skipped counts; the destination file is written only in the
success case, and the outer catch wraps any escaping error message. -/
def createZipFromFolderRun (tree : FsNode) (folderAbs : FsPath) (mode : String)
    (customName : Option String) (gitExclusionMode : String) (token : Nat → Bool) :
    Except String (List ZipEntry × Nat × Nat) :=
  let hasGit := (lookupNode tree [".git"]).isSome
  let hasGitignore := (lookupNode tree [".gitignore"]).isSome
  let ignoreRules :=
    if (decide (gitExclusionMode = "exclude_git")
          || decide (gitExclusionMode = "respect_gitignore"))
        && hasGitignore then
      some (parseGitignore (match fsRead tree [".gitignore"] with
        | .ok t => some t
        | .error _ => none))
    else none
  match buildLoop tree folderAbs mode customName gitExclusionMode hasGit hasGitignore
      ignoreRules token (getAllFiles folderAbs tree) 0 0 0 [] with
  | .ok r => .ok r
  | .error e => .error ("Failed to create zip: " ++ e)

/-- Model of the extract-all handler (`extract-all-folder` / `extract-all-here`
in the zip editor): directory entries are filtered out and every remaining
file entry is written at the entry's internal path below the target
directory. The result lists the written files as (target-relative path,
content) in extraction order. -/
def extractAllFiles (entries : List ZipEntry) : List (List String × String) :=
  (entries.filter (fun f => !f.isDir)).map (fun f => (f.name, f.content))

/-- Whether the target-relative directory `d` exists after extract-all: the
handler creates directories only as the parent chain of a written file, so
`d` exists exactly when it is a prefix of some written file's parent path. -/
def dirExistsAfterExtract (entries : List ZipEntry) (d : List String) : Bool :=
  (entries.filter (fun f => !f.isDir)).any
    (fun f => decide (f.name.dropLast.take d.length = d))

/-- One input to `createZipFromFiles`: its absolute path, content, and
whether reading it succeeds. -/
structure InputFile where
  fsPath : FsPath
  content : String
  readable : Bool

/-- Model of Node's `path.basename(p, ext)`: the basename with the extension
suffix removed, unless the basename is the extension itself. -/
def basenameExt (p : FsPath) (ext : String) : String :=
  let b := basename p
  if decide (b ≠ ext) && jsEndsWith b ext then jsDropRight b ext.length else b

/-- Per-file loop of `createZipFromFiles` (GZipEdit.js) with
`excludeGitFiles = false` (then both Git-related blocks of the source are
inert: `folderPath` stays empty). Each readable file is stored under
`commonFolderName/fileName` when a common folder is used and under its bare
basename otherwise; a failed read is caught, warned about and skipped. -/
def filesLoop (useCommonFolder : Bool) (commonFolderName : String)
    (token : Nat → Bool) : List InputFile → Nat → Except String (List ZipEntry)
  | [], _ => .ok []
  | f :: rest, i =>
    if token i then .error "Compression cancelled"
    else
      let fileName := basename f.fsPath
      if f.readable then
        match filesLoop useCommonFolder commonFolderName token rest (i + 1) with
        | .error e => .error e
        | .ok es =>
          .ok (⟨if useCommonFolder then [commonFolderName, fileName] else [fileName],
            false, f.content⟩ :: es)
      else
        filesLoop useCommonFolder commonFolderName token rest (i + 1)

/-- Model of `createZipFromFiles` (GZipEdit.js) with `excludeGitFiles =
false` and the output path already resolved: an empty selection fails, a
common top-level folder named after the output zip's basename is used
exactly when more than one file was selected, and the outer catch wraps any
escaping error. -/
def createZipFromFilesRun (files : List InputFile) (outputPath : FsPath)
    (token : Nat → Bool) : Except String (List ZipEntry) :=
  if files.length = 0 then .error "Failed to create zip: No files to zip"
  else
    let useCommonFolder := decide (1 < files.length)
    let commonFolderName := basenameExt outputPath ".zip"
    match filesLoop useCommonFolder commonFolderName token files 0 with
    | .ok es => .ok es
    | .error e => .error ("Failed to create zip: " ++ e)

mutual
/-- Root-relative paths of all strict subdirectories of the node at
root-relative position `rel` (the node's own position is listed unless it is
the enumeration root). -/
def dirRelPathsNode (rel : List String) : FsNode → List (List String)
  | .file _ _ => []
  | .dir cs => (if rel = [] then [] else [rel]) ++ dirRelPathsKids rel cs

/-- Root-relative paths of all strict subdirectories below a list of
children, in descent order. -/
def dirRelPathsKids (rel : List String) : List (String × FsNode) → List (List String)
  | [] => []
  | (n, c) :: rest => dirRelPathsNode (rel ++ [n]) c ++ dirRelPathsKids rel rest
end

/-- Root-relative paths of all strict subdirectories of a tree. -/
def dirRelPaths : FsNode → List (List String) :=
  dirRelPathsNode []

mutual
/-- Root-relative path, content and readability of every file at or below
the node at root-relative position `rel`. -/
def fileListNode (rel : List String) : FsNode → List (List String × String × Bool)
  | .file c r => [(rel, c, r)]
  | .dir cs => fileListKids rel cs

/-- Root-relative paths, contents and readability of all files below a list
of children, in descent order. -/
def fileListKids (rel : List String) :
    List (String × FsNode) → List (List String × String × Bool)
  | [] => []
  | (n, c) :: rest => fileListNode (rel ++ [n]) c ++ fileListKids rel rest
end

/-- Root-relative paths, contents and readability of all files in a tree. -/
def fileList : FsNode → List (List String × String × Bool)
  | .file _ _ => []
  | .dir cs => fileListKids [] cs

/-- A name a real directory listing can report and that survives the path
arithmetic unchanged: non-empty, free of separators, not a dot or dot-dot
form, not starting with two dots and not drive-letter-like. -/
def goodSeg (s : String) : Bool :=
  decide (s ≠ "") && decide (s ≠ ".") && !jsStartsWith s ".." && !driveLikeStr s
    && !jsHasChar s '/'

/-- A segment that POSIX normalization keeps verbatim. -/
def canonicalSeg (s : String) : Prop :=
  s ≠ "" ∧ s ≠ "." ∧ s ≠ ".."

instance (s : String) : Decidable (canonicalSeg s) := by
  unfold canonicalSeg
  infer_instance

mutual
/-- Wellformedness of a tree relative to a per-name predicate: sibling names
are distinct (as on a real filesystem) and satisfy the predicate, at every
level. -/
def wfNode (good : String → Bool) : FsNode → Bool
  | .file _ _ => true
  | .dir cs =>
    namesNodup (cs.map Prod.fst) && (cs.map Prod.fst).all good
      && wfKidsAux good cs

/-- Helper for `wfNode`: wellformedness of every child subtree. -/
def wfKidsAux (good : String → Bool) : List (String × FsNode) → Bool
  | [] => true
  | (_, c) :: rest => wfNode good c && wfKidsAux good rest
end

mutual
/-- Every file in the tree is readable. -/
def allReadable : FsNode → Bool
  | .file _ r => r
  | .dir cs => allReadableKids cs

/-- Helper for `allReadable`. -/
def allReadableKids : List (String × FsNode) → Bool
  | [] => true
  | (_, c) :: rest => allReadable c && allReadableKids rest
end

/-- Path `r` lies strictly inside directory `d`: `d` is a proper prefix. -/
def isUnder (d r : List String) : Prop :=
  (∃ t, r = d ++ t) ∧ r ≠ d

/-- The archive entry `buildLoop` produces for one surviving Entry under the
`with` mode: directories become folder entries, files carry the read
content. -/
def entryZip (tree : FsNode) (folderAbs : FsPath) (cn : Option String)
    (e : Entry) : ZipEntry :=
  if e.isDirectory then ⟨processPath "with" cn folderAbs e.path, true, ""⟩
  else ⟨processPath "with" cn folderAbs e.path, false,
    match fsRead tree e.relativePath with
    | .ok c => c
    | .error _ => ""⟩

/-! Lemmas. -/

theorem goodSeg_canonical {s : String} (h : goodSeg s = true) : canonicalSeg s := by
  unfold goodSeg at h
  simp only [Bool.and_eq_true, decide_eq_true_eq, Bool.not_eq_true'] at h
  refine ⟨h.1.1.1.1, h.1.1.1.2, ?_⟩
  intro hs
  subst hs
  have hT : jsStartsWith ".." ".." = true := by decide
  rw [h.1.1.2] at hT
  exact Bool.noConfusion hT

theorem goodSeg_no_dotdot {s : String} (h : goodSeg s = true) :
    jsStartsWith s ".." = false := by
  unfold goodSeg at h
  simp only [Bool.and_eq_true, Bool.not_eq_true'] at h
  exact h.1.1.2

theorem goodSeg_no_drive {s : String} (h : goodSeg s = true) :
    driveLikeStr s = false := by
  unfold goodSeg at h
  simp only [Bool.and_eq_true, Bool.not_eq_true'] at h
  exact h.1.2

theorem normStep_canonical (abs : Bool) (acc : List String) {s : String}
    (h : canonicalSeg s) : normStep abs acc s = s :: acc := by
  obtain ⟨h1, h2, h3⟩ := h
  simp [normStep, h1, h2, h3]

theorem foldl_normStep (abs : Bool) (l : List String)
    (h : ∀ s ∈ l, canonicalSeg s) :
    ∀ acc, l.foldl (normStep abs) acc = l.reverse ++ acc := by
  induction l with
  | nil => intro acc; simp
  | cons a t ih =>
    intro acc
    rw [List.foldl_cons, normStep_canonical abs acc (h a (by simp)),
      ih (fun s hs => h s (by simp [hs])) (a :: acc)]
    simp

theorem normalizeSegs_canonical (abs : Bool) (l : List String)
    (h : ∀ s ∈ l, canonicalSeg s) : normalizeSegs abs l = l := by
  unfold normalizeSegs
  rw [foldl_normStep abs l h []]
  simp

theorem dropCommon_append (l r : List String) : dropCommon l (l ++ r) = ([], r) := by
  induction l with
  | nil => cases r <;> simp [dropCommon]
  | cons a t ih => simpa [dropCommon] using ih

theorem dropCommon_snd_mem (a : List String) :
    ∀ b x, x ∈ (dropCommon a b).2 → x ∈ b := by
  induction a with
  | nil => intro b x h; simpa [dropCommon] using h
  | cons s t ih =>
    intro b x h
    cases b with
    | nil => simp [dropCommon] at h
    | cons b0 bs =>
      by_cases hsb : s = b0
      · subst hsb
        simp only [dropCommon, if_pos rfl] at h
        exact List.mem_cons_of_mem _ (ih bs x h)
      · simp only [dropCommon, if_neg hsb] at h
        exact h

theorem pathRelative_under (root p : FsPath) (r : List String)
    (hp : p.segs = root.segs ++ r)
    (hroot : ∀ s ∈ root.segs, canonicalSeg s)
    (hr : ∀ s ∈ r, canonicalSeg s) :
    pathRelative root p = r := by
  unfold pathRelative
  dsimp only
  rw [normalizeSegs_canonical true root.segs hroot, hp,
    normalizeSegs_canonical true (root.segs ++ r)
      (by intro s hs; rcases List.mem_append.mp hs with h | h
          · exact hroot s h
          · exact hr s h),
    dropCommon_append]
  simp

theorem basename_mem (p : FsPath) (hne : p.segs ≠ [])
    (h : ∀ s ∈ p.segs, canonicalSeg s) :
    basename p ∈ p.segs ∧ basename p ≠ "" ∧ basename p ≠ ".." := by
  unfold basename
  cases hrev : p.segs.reverse with
  | nil =>
    exact absurd (by simpa using congrArg List.reverse hrev) hne
  | cons a t =>
    have ha : a ∈ p.segs := by
      have : a ∈ p.segs.reverse := by rw [hrev]; exact List.mem_cons_self a t
      simpa using this
    have hca := h a ha
    have hdrop : (a :: t).dropWhile (fun s => decide (s = "")) = a :: t := by
      rw [List.dropWhile_cons]
      simp [hca.1]
    rw [hdrop]
    simpa using ⟨ha, hca.1, hca.2.2⟩

theorem processPath_under (mode : String) (cn : Option String) (root : FsPath)
    (r : List String) (habs : root.abs = true)
    (hroot : ∀ s ∈ root.segs, canonicalSeg s)
    (hr : ∀ s ∈ r, goodSeg s = true) (hne : r ≠ []) :
    processPath mode cn root (childAbs root r) = r := by
  have hcanon : ∀ s ∈ r, canonicalSeg s := fun s hs => goodSeg_canonical (hr s hs)
  have hrel : pathRelative root (childAbs root r) = r :=
    pathRelative_under root (childAbs root r) r rfl hroot hcanon
  unfold processPath
  rw [show (childAbs root r).abs = true by simpa [childAbs] using habs]
  simp only [if_true, hrel]
  cases r with
  | nil => exact absurd rfl hne
  | cons a t =>
    have hga := hr a (by simp)
    have h1 : relStartsDotDot (a :: t) = false := by
      simp [relStartsDotDot, goodSeg_no_dotdot hga]
    have h2 : relDriveLike (a :: t) = false := by
      simp [relDriveLike, goodSeg_no_drive hga]
    simp [h1, h2]

theorem pathRelative_mem (root p : FsPath) (hcanon : ∀ s ∈ p.segs, canonicalSeg s) :
    ∀ x ∈ pathRelative root p, x = ".." ∨ x ∈ p.segs := by
  intro x hx
  unfold pathRelative at hx
  dsimp only at hx
  rw [normalizeSegs_canonical true p.segs hcanon] at hx
  rcases List.mem_append.mp hx with h | h
  · exact Or.inl (List.eq_of_mem_replicate h)
  · exact Or.inr (dropCommon_snd_mem _ _ x h)

theorem pathRelative_dotdot_head (root p : FsPath)
    (hcanon : ∀ s ∈ p.segs, canonicalSeg s)
    (hdd : ".." ∈ pathRelative root p) :
    (pathRelative root p).head? = some ".." := by
  unfold pathRelative at hdd ⊢
  dsimp only at hdd ⊢
  rw [normalizeSegs_canonical true p.segs hcanon] at hdd ⊢
  rcases List.mem_append.mp hdd with h | h
  · have hk := List.length_pos.mpr (List.ne_nil_of_mem h)
    rw [List.length_replicate] at hk
    cases hk' : (dropCommon (normalizeSegs true root.segs) p.segs).1.length with
    | zero => omega
    | succ m => rw [List.replicate_succ]; simp
  · exact absurd rfl ((hcanon ".." (dropCommon_snd_mem _ _ _ h)).2.2)

theorem relStartsDotDot_of_head (rel : List String)
    (h : rel.head? = some "..") : relStartsDotDot rel = true := by
  simp only [relStartsDotDot, h]
  decide

/-- C6 (counterexample): the claim quantifies over every input path and
every naming policy, but an absolute non-canonical input maps to a bare
dot-dot segment, and a file whose own name carries a letter-colon prefix
maps to a drive-letter-like output. -/
theorem claim_c6_counterexample :
    ".." ∈ processPath "with" none ⟨true, ["r"]⟩ ⟨true, ["r", "a", "..", "..", ".."]⟩ ∧
    driveLikeStr (((processPath "only" none ⟨true, ["r"]⟩ ⟨true, ["r", "C:f"]⟩).head?).getD "")
      = true := by
  decide

/-- C6 (amended): for every naming policy and every canonical absolute
input path (a non-empty segment list free of empty, dot and dot-dot
segments), the mapped archive path contains no dot-dot segment and does not
start with an empty segment (no leading slash in its joined form). -/
theorem claim_c6_no_escape (mode : String) (cn : Option String) (root p : FsPath)
    (habs : p.abs = true) (hne : p.segs ≠ [])
    (hcanon : ∀ s ∈ p.segs, canonicalSeg s) :
    (∀ s ∈ processPath mode cn root p, s ≠ "..") ∧
    ((processPath mode cn root p).head?).getD "x" ≠ "" := by
  unfold processPath
  rw [habs]
  simp only [if_true]
  by_cases hguard : (relStartsDotDot (pathRelative root p)
      || relDriveLike (pathRelative root p)) = true
  · rw [if_pos hguard]
    obtain ⟨hmem, hnee, hndd⟩ := basename_mem p hne hcanon
    refine ⟨?_, by simpa using hnee⟩
    intro s hs
    rw [List.mem_singleton] at hs
    subst hs
    exact hndd
  · rw [if_neg hguard]
    have hnodd : ∀ s ∈ pathRelative root p, s ≠ ".." := by
      intro s hs hs'
      subst hs'
      exact hguard (by
        rw [relStartsDotDot_of_head _ (pathRelative_dotdot_head root p hcanon hs)]
        simp)
    refine ⟨hnodd, ?_⟩
    cases hrel : pathRelative root p with
    | nil => simp
    | cons a t =>
      have ha : a ∈ pathRelative root p := by rw [hrel]; simp
      rcases pathRelative_mem root p hcanon a ha with h | h
      · exact absurd h (hnodd a ha)
      · simpa using (hcanon a h).1

/-- C6 (amended, witness): the guarantee at a concrete canonical absolute
input under the default naming policy. -/
theorem claim_c6_no_escape_witness :
    (∀ s ∈ processPath "with" none ⟨true, ["r"]⟩ ⟨true, ["r", "src", "a.txt"]⟩,
      s ≠ "..") ∧
    ((processPath "with" none ⟨true, ["r"]⟩ ⟨true, ["r", "src", "a.txt"]⟩).head?).getD "x"
      ≠ "" :=
  claim_c6_no_escape "with" none ⟨true, ["r"]⟩ ⟨true, ["r", "src", "a.txt"]⟩
    rfl (by decide) (by decide)

/-- C9: an absolute input whose computed relative form starts with two dots
or carries a drive-letter prefix is flattened to its basename: a single
segment stored at the archive root, never a dot-dot segment, so no archive
path escapes the root. -/
theorem claim_c9_outside_flattened (mode : String) (cn : Option String)
    (root p : FsPath) (habs : p.abs = true) (hne : p.segs ≠ [])
    (hcanon : ∀ s ∈ p.segs, canonicalSeg s)
    (hout : relStartsDotDot (pathRelative root p) = true ∨
      relDriveLike (pathRelative root p) = true) :
    processPath mode cn root p = [basename p] ∧
    basename p ≠ ".." ∧ basename p ≠ "" := by
  obtain ⟨hmem, hnee, hndd⟩ := basename_mem p hne hcanon
  refine ⟨?_, hndd, hnee⟩
  unfold processPath
  rw [habs]
  simp only [if_true]
  rw [if_pos]
  rcases hout with h | h <;> simp [h]

/-- C9 (witness): the absolute path `/x/f` does not lie under the root `/r`;
it is flattened to the single segment `f`. -/
theorem claim_c9_outside_flattened_witness :
    processPath "with" none ⟨true, ["r"]⟩ ⟨true, ["x", "f"]⟩
      = [basename ⟨true, ["x", "f"]⟩] ∧
    basename ⟨true, ["x", "f"]⟩ ≠ ".." ∧ basename ⟨true, ["x", "f"]⟩ ≠ "" :=
  claim_c9_outside_flattened "with" none ⟨true, ["r"]⟩ ⟨true, ["x", "f"]⟩
    rfl (by decide) (by decide) (Or.inl (by decide))

/-- C1: with the `with` (WithFolder) mode, an enumerated absolute entry path
is mapped by the absolute-path branch of `processPath`, which never reaches
the mode switch: the file `src/a.txt` under root `/r` is stored as
`src/a.txt`, not `r/src/a.txt`, and the produced archive of the whole run
contains no entry under the root folder name. -/
theorem claim_c1_with_folder_divergence :
    processPath "with" none ⟨true, ["r"]⟩ ⟨true, ["r", "src", "a.txt"]⟩
      = ["src", "a.txt"] ∧
    ["src", "a.txt"] ≠ ["r", "src", "a.txt"] ∧
    createZipFromFolderRun (.dir [("src", .dir [("a.txt", .file "hello" true)])])
        ⟨true, ["r"]⟩ "with" none "include_all" (fun _ => false)
      = .ok ([⟨["src"], true, ""⟩, ⟨["src", "a.txt"], false, "hello"⟩], 2, 0) := by
  decide

/-- C4: a source file that cannot be read is not a recoverable per-entry
error in `createZipFromFolder`: the read failure escapes the loop, the outer
catch wraps it, the whole run fails and no archive is produced (no skip, no
warning, no skipped count). -/
theorem claim_c4_read_error_aborts :
    createZipFromFolderRun (.dir [("a.txt", .file "x" false)]) ⟨true, ["r"]⟩
        "with" none "include_all" (fun _ => false)
      = .error "Failed to create zip: cannot read file" := by
  decide

theorem foldl_ignores (p : List String) (rules : List IgnoreRule)
    (hpos : ∀ r ∈ rules, r.neg = false) :
    ∀ acc, rules.foldl (fun acc r => if matchPattern r.pat p then !r.neg else acc) acc
      = (acc || rules.any (fun r => matchPattern r.pat p)) := by
  induction rules with
  | nil => intro acc; simp
  | cons r rest ih =>
    intro acc
    rw [List.foldl_cons]
    by_cases hm : matchPattern r.pat p = true
    · rw [if_pos hm, hpos r (by simp),
        ih (fun q hq => hpos q (by simp [hq])) (!false)]
      simp [hm]
    · rw [if_neg hm, ih (fun q hq => hpos q (by simp [hq])) acc]
      simp only [List.any_cons, Bool.not_eq_true] at *
      rw [hm]
      simp

theorem ignoresRules_allPos (rules : List IgnoreRule) (p : List String)
    (hpos : ∀ r ∈ rules, r.neg = false) :
    ignoresRules rules p = rules.any (fun r => matchPattern r.pat p) := by
  unfold ignoresRules
  rw [foldl_ignores p rules hpos false]
  simp

/-- C3 (counterexample): with the negated rule file `!b/` followed by `b`,
the original rules ignore the path `b`, but the synthesized variants append
the negated `!b` after the originals and the widened matcher no longer
ignores `b` — the expansion narrowed matching. -/
theorem claim_c3_counterexample :
    ignoresRules (rulesOfText "!b/\nb") ["b"] = true ∧
    ignoresRules (parseGitignore (some "!b/\nb")) ["b"] = false := by
  decide

/-- C3 (amended): the compatibility expansion only widens matching provided
the rule file yields no negated rule at all — neither among the original
rules nor among the synthesized variants (no trimmed rule line begins with
`!`, and no anchored rule hides a `!` behind its leading slash): whenever
the original rules alone ignore a path, the widened rule set still ignores
it. -/
theorem claim_c3_widen_only (text : String) (p : List String)
    (h1 : ∀ r ∈ rulesOfText text, r.neg = false)
    (h2 : ∀ r ∈ (additionalRules text).filterMap mkRule, r.neg = false)
    (h : ignoresRules (rulesOfText text) p = true) :
    ignoresRules (parseGitignore (some text)) p = true := by
  unfold parseGitignore
  rw [ignoresRules_allPos _ _ (by
    intro r hr
    rcases List.mem_append.mp hr with hm | hm
    · exact h1 r hm
    · exact h2 r hm)]
  rw [ignoresRules_allPos _ _ h1] at h
  rw [List.any_append, h]
  simp

/-- C3 (witness): a concrete positive-only rule file where the original
rules ignore `b/x` and the widened matcher still ignores it. -/
theorem claim_c3_widen_only_witness :
    ignoresRules (parseGitignore (some "b/\nsrc")) ["b", "x"] = true :=
  claim_c3_widen_only "b/\nsrc" ["b", "x"] (by decide) (by decide) (by decide)

/-- C7: when the rule file cannot be read, `parseGitignore` fails open and
the resulting matcher matches no relative path at all. -/
theorem claim_c7_fail_open : ∀ p : List String,
    ignoresRules (parseGitignore none) p = false :=
  fun _ => rfl

/-- C5: a cancellation token that reports true at the first per-entry check
makes `createZipFromFolder` abort with the wrapped cancellation error; the
run produces no success value, and the destination zip is written only on
success. -/
theorem claim_c5_cancel_before_first (tree : FsNode) (folderAbs : FsPath)
    (mode : String) (cn : Option String) (gitMode : String) (token : Nat → Bool)
    (htok : token 0 = true) (hne : getAllFiles folderAbs tree ≠ []) :
    createZipFromFolderRun tree folderAbs mode cn gitMode token =
      .error "Failed to create zip: Compression cancelled" := by
  unfold createZipFromFolderRun
  cases hl : getAllFiles folderAbs tree with
  | nil => exact absurd hl hne
  | cons e rest =>
    simp [buildLoop, htok]

/-- C5 (witness): a one-file tree with a token already cancelled at the
first check. -/
theorem claim_c5_cancel_witness :
    createZipFromFolderRun (.dir [("a.txt", .file "x" true)]) ⟨true, ["r"]⟩
        "with" none "include_all" (fun _ => true)
      = .error "Failed to create zip: Compression cancelled" :=
  claim_c5_cancel_before_first _ _ _ _ _ _ rfl (by decide)

theorem filesLoop_ok (ucf : Bool) (cfn : String) (fs : List InputFile) :
    ∀ i, filesLoop ucf cfn (fun _ => false) fs i =
      .ok ((fs.filter (fun f => f.readable)).map
        (fun f => ⟨if ucf then [cfn, basename f.fsPath] else [basename f.fsPath],
          false, f.content⟩)) := by
  induction fs with
  | nil => intro i; simp [filesLoop]
  | cons f rest ih =>
    intro i
    by_cases hr : f.readable = true
    · simp [filesLoop, hr, ih (i + 1)]
    · rw [Bool.not_eq_true] at hr
      simp [filesLoop, hr, ih (i + 1)]

/-- C10: with at least two selected files, every successfully read file is
stored as `commonFolderName/fileName` under the single top-level folder
named after the output zip's basename; with exactly one selected file it is
stored at the archive root under its bare basename. -/
theorem claim_c10_common_folder (files : List InputFile) (outputPath : FsPath) :
    (2 ≤ files.length →
      createZipFromFilesRun files outputPath (fun _ => false) =
        .ok ((files.filter (fun f => f.readable)).map
          (fun f => ⟨[basenameExt outputPath ".zip", basename f.fsPath],
            false, f.content⟩))) ∧
    (files.length = 1 →
      createZipFromFilesRun files outputPath (fun _ => false) =
        .ok ((files.filter (fun f => f.readable)).map
          (fun f => ⟨[basename f.fsPath], false, f.content⟩))) := by
  constructor
  · intro h2
    unfold createZipFromFilesRun
    rw [if_neg (by omega)]
    dsimp only
    have hucf : decide (1 < files.length) = true := by
      simp
      omega
    rw [filesLoop_ok _ _ files 0, hucf]
    simp
  · intro h1
    unfold createZipFromFilesRun
    rw [if_neg (by omega)]
    dsimp only
    have hucf : decide (1 < files.length) = false := by
      simp
      omega
    rw [filesLoop_ok _ _ files 0, hucf]
    simp

theorem kidsRec (P : List (String × FsNode) → List String → Prop)
    (h0 : ∀ rel, P [] rel)
    (hf : ∀ n ct rb rest rel, P rest rel → P ((n, .file ct rb) :: rest) rel)
    (hd : ∀ n cs rest rel, P cs (rel ++ [n]) → P rest rel →
      P ((n, .dir cs) :: rest) rel) :
    ∀ cs rel, P cs rel := by
  have H : ∀ N cs rel, sizeOf cs ≤ N → P cs rel := by
    intro N
    induction N with
    | zero =>
      intro cs rel h
      cases cs with
      | nil => exact h0 rel
      | cons c rest =>
        exfalso
        simp only [List.cons.sizeOf_spec] at h
        omega
    | succ N ih =>
      intro cs rel h
      cases cs with
      | nil => exact h0 rel
      | cons c0 rest =>
        obtain ⟨n, c⟩ := c0
        cases c with
        | file ct rb =>
          refine hf n ct rb rest rel (ih rest rel ?_)
          simp only [List.cons.sizeOf_spec, Prod.mk.sizeOf_spec] at h
          omega
        | dir cs' =>
          simp only [List.cons.sizeOf_spec, Prod.mk.sizeOf_spec,
            FsNode.dir.sizeOf_spec] at h
          exact hd n cs' rest rel (ih cs' (rel ++ [n]) (by omega))
            (ih rest rel (by omega))
  intro cs rel
  exact H (sizeOf cs) cs rel le_rfl

theorem kids_nil (root : FsPath) (rel : List String) :
    getAllFilesKids root rel [] = [] := by
  simp [getAllFilesKids]

theorem kids_cons_file (root : FsPath) (rel : List String) (n ct : String)
    (rb : Bool) (rest : List (String × FsNode)) :
    getAllFilesKids root rel ((n, .file ct rb) :: rest) =
      ⟨childAbs root (rel ++ [n]), rel ++ [n], false⟩ ::
        getAllFilesKids root rel rest := by
  simp [getAllFilesKids]

theorem kids_cons_dir (root : FsPath) (rel : List String) (n : String)
    (cs rest : List (String × FsNode)) :
    getAllFilesKids root rel ((n, .dir cs) :: rest) =
      (⟨childAbs root (rel ++ [n]), rel ++ [n], true⟩ ::
        getAllFilesKids root (rel ++ [n]) cs)
      ++ getAllFilesKids root rel rest := by
  simp [getAllFilesKids, getAllFilesNode]

theorem dirPaths_nil (rel : List String) : dirRelPathsKids rel [] = [] := by
  simp [dirRelPathsKids]

theorem dirPaths_cons_file (rel : List String) (n ct : String) (rb : Bool)
    (rest : List (String × FsNode)) :
    dirRelPathsKids rel ((n, .file ct rb) :: rest) = dirRelPathsKids rel rest := by
  simp [dirRelPathsKids, dirRelPathsNode]

theorem dirPaths_cons_dir (rel : List String) (n : String)
    (cs rest : List (String × FsNode)) :
    dirRelPathsKids rel ((n, .dir cs) :: rest) =
      (rel ++ [n]) :: (dirRelPathsKids (rel ++ [n]) cs ++ dirRelPathsKids rel rest) := by
  simp [dirRelPathsKids, dirRelPathsNode]

theorem kids_rel_shape (root : FsPath) :
    ∀ cs rel, ∀ e ∈ getAllFilesKids root rel cs,
      (∃ n t, e.relativePath = rel ++ n :: t) ∧
      e.path = childAbs root e.relativePath := by
  refine kidsRec (fun cs rel => ∀ e ∈ getAllFilesKids root rel cs,
    (∃ n t, e.relativePath = rel ++ n :: t) ∧
    e.path = childAbs root e.relativePath) ?_ ?_ ?_
  · intro rel e he
    rw [kids_nil] at he
    cases he
  · intro n ct rb rest rel ih e he
    rw [kids_cons_file] at he
    rcases List.mem_cons.mp he with h | h
    · subst h
      exact ⟨⟨n, [], rfl⟩, rfl⟩
    · exact ih e h
  · intro n cs rest rel ihc ihr e he
    rw [kids_cons_dir] at he
    rcases List.mem_append.mp he with h | h
    · rcases List.mem_cons.mp h with h' | h'
      · subst h'
        exact ⟨⟨n, [], rfl⟩, rfl⟩
      · obtain ⟨⟨m, t, ht⟩, hp⟩ := ihc e h'
        refine ⟨⟨n, m :: t, ?_⟩, hp⟩
        rw [ht]
        simp
    · exact ihr e h

theorem dirPaths_shape :
    ∀ (cs : List (String × FsNode)) (rel : List String),
      ∀ d ∈ dirRelPathsKids rel cs,
        ∃ n t, d = rel ++ n :: t ∧ n ∈ cs.map Prod.fst := by
  refine kidsRec (fun cs rel => ∀ d ∈ dirRelPathsKids rel cs,
    ∃ n t, d = rel ++ n :: t ∧ n ∈ cs.map Prod.fst) ?_ ?_ ?_
  · intro rel d hd'
    rw [dirPaths_nil] at hd'
    cases hd'
  · intro n ct rb rest rel ih d hd'
    rw [dirPaths_cons_file] at hd'
    obtain ⟨m, t, hmt, hmem⟩ := ih d hd'
    exact ⟨m, t, hmt, by simpa using Or.inr (by simpa using hmem)⟩
  · intro n cs rest rel ihc ihr d hd'
    rw [dirPaths_cons_dir] at hd'
    rcases List.mem_cons.mp hd' with h | h
    · exact ⟨n, [], h, by simp⟩
    · rcases List.mem_append.mp h with h' | h'
      · obtain ⟨m, t, hmt, _⟩ := ihc d h'
        refine ⟨n, m :: t, ?_, by simp⟩
        rw [hmt]
        simp
      · obtain ⟨m, t, hmt, hmem⟩ := ihr d h'
        exact ⟨m, t, hmt, by simpa using Or.inr (by simpa using hmem)⟩

theorem namesNodup_cons {n : String} {l : List String}
    (h : namesNodup (n :: l) = true) :
    (∀ m ∈ l, m ≠ n) ∧ namesNodup l = true := by
  unfold namesNodup at h
  rw [Bool.and_eq_true, Bool.not_eq_true'] at h
  refine ⟨?_, h.2⟩
  intro m hm hmn
  have : l.any (fun m => decide (m = n)) = true :=
    List.any_eq_true.mpr ⟨m, hm, by simp [hmn]⟩
  rw [h.1] at this
  exact Bool.noConfusion this

theorem wfNode_parts {good : String → Bool} {cs : List (String × FsNode)}
    (h : wfNode good (.dir cs) = true) :
    namesNodup (cs.map Prod.fst) = true ∧ (cs.map Prod.fst).all good = true ∧
      wfKidsAux good cs = true := by
  unfold wfNode at h
  rw [Bool.and_eq_true, Bool.and_eq_true] at h
  exact ⟨h.1.1, h.1.2, h.2⟩

theorem wfKidsAux_cons {good : String → Bool} {n : String} {c : FsNode}
    {cs : List (String × FsNode)} (h : wfKidsAux good ((n, c) :: cs) = true) :
    wfNode good c = true ∧ wfKidsAux good cs = true := by
  unfold wfKidsAux at h
  rw [Bool.and_eq_true] at h
  exact h

theorem wfNode_mk {good : String → Bool} {cs : List (String × FsNode)}
    (h1 : namesNodup (cs.map Prod.fst) = true)
    (h2 : (cs.map Prod.fst).all good = true) (h3 : wfKidsAux good cs = true) :
    wfNode good (.dir cs) = true := by
  unfold wfNode
  rw [Bool.and_eq_true, Bool.and_eq_true]
  exact ⟨⟨h1, h2⟩, h3⟩

theorem wfNode_rest {good : String → Bool} {n : String} {c : FsNode}
    {cs : List (String × FsNode)}
    (h : wfNode good (.dir ((n, c) :: cs)) = true) :
    wfNode good (.dir cs) = true := by
  obtain ⟨h1, h2, h3⟩ := wfNode_parts h
  rw [List.map_cons] at h1 h2
  rw [List.all_cons, Bool.and_eq_true] at h2
  exact wfNode_mk (namesNodup_cons h1).2 h2.2 (wfKidsAux_cons h3).2

theorem wfNode_head_fresh {good : String → Bool} {n : String} {c : FsNode}
    {cs : List (String × FsNode)}
    (h : wfNode good (.dir ((n, c) :: cs)) = true) :
    ∀ m ∈ cs.map Prod.fst, m ≠ n := by
  obtain ⟨h1, _, _⟩ := wfNode_parts h
  rw [List.map_cons] at h1
  exact (namesNodup_cons h1).1

theorem wfNode_child {good : String → Bool} {n : String} {c : FsNode}
    {cs : List (String × FsNode)}
    (h : wfNode good (.dir ((n, c) :: cs)) = true) : wfNode good c = true :=
  (wfKidsAux_cons (wfNode_parts h).2.2).1

theorem wfNode_head_good {good : String → Bool} {n : String} {c : FsNode}
    {cs : List (String × FsNode)}
    (h : wfNode good (.dir ((n, c) :: cs)) = true) : good n = true := by
  obtain ⟨_, h2, _⟩ := wfNode_parts h
  rw [List.map_cons, List.all_cons, Bool.and_eq_true] at h2
  exact h2.1

theorem append_cancel {α : Type} (a : List α) {b c : List α}
    (h : a ++ b = a ++ c) : b = c := by
  induction a with
  | nil => simpa using h
  | cons x xs ih =>
    rw [List.cons_append, List.cons_append] at h
    injection h with _ h2
    exact ih h2

theorem filter_eq_length_one {α : Type} [DecidableEq α] {l : List α}
    (hnd : l.Nodup) {d : α} (hd : d ∈ l) :
    (l.filter (fun x => decide (x = d))).length = 1 := by
  induction l with
  | nil => cases hd
  | cons a rest ih =>
    rw [List.nodup_cons] at hnd
    rcases List.mem_cons.mp hd with h | h
    · subst h
      have hrest : rest.filter (fun x => decide (x = d)) = [] := by
        rw [List.filter_eq_nil_iff]
        intro x hx hxd
        rw [decide_eq_true_eq] at hxd
        exact hnd.1 (hxd ▸ hx)
      rw [List.filter_cons]
      simp [hrest]
    · have had : ¬(a = d) := fun he => hnd.1 (he ▸ h)
      rw [List.filter_cons]
      simp [had, ih hnd.2 h]

theorem dirPaths_nodup (good : String → Bool) :
    ∀ (cs : List (String × FsNode)) (rel : List String),
      wfNode good (.dir cs) = true → (dirRelPathsKids rel cs).Nodup := by
  refine kidsRec (fun cs rel =>
    wfNode good (.dir cs) = true → (dirRelPathsKids rel cs).Nodup) ?_ ?_ ?_
  · intro rel _
    rw [dirPaths_nil]
    exact List.nodup_nil
  · intro n ct rb rest rel ih h
    rw [dirPaths_cons_file]
    exact ih (wfNode_rest h)
  · intro n cs rest rel ihc ihr h
    rw [dirPaths_cons_dir, List.nodup_cons]
    constructor
    · intro hmem
      rcases List.mem_append.mp hmem with hA | hB
      · obtain ⟨m, t, hmt, _⟩ := dirPaths_shape cs (rel ++ [n]) _ hA
        have := congrArg List.length hmt
        simp at this
      · obtain ⟨m, t, hmt, hmm⟩ := dirPaths_shape rest rel _ hB
        have hc := append_cancel rel hmt
        injection hc with h1 _
        exact (wfNode_head_fresh h m hmm) h1.symm
    · rw [List.nodup_append]
      refine ⟨ihc (wfNode_child h), ihr (wfNode_rest h), ?_⟩
      intro a haA haB
      obtain ⟨m1, t1, h1, _⟩ := dirPaths_shape cs (rel ++ [n]) a haA
      obtain ⟨m2, t2, h2, hm2⟩ := dirPaths_shape rest rel a haB
      rw [h1] at h2
      have hc := h2.symm
      simp only [List.append_assoc, List.cons_append, List.append_cancel_left_eq,
        List.cons.injEq] at hc
      exact (wfNode_head_fresh h m2 hm2) hc.1

theorem kids_dir_filter (root : FsPath) :
    ∀ (cs : List (String × FsNode)) (rel : List String), ∀ d,
      ((getAllFilesKids root rel cs).filter
        (fun e => e.isDirectory && decide (e.relativePath = d))).length
      = ((dirRelPathsKids rel cs).filter (fun x => decide (x = d))).length := by
  refine kidsRec (fun cs rel => ∀ d,
    ((getAllFilesKids root rel cs).filter
      (fun e => e.isDirectory && decide (e.relativePath = d))).length
    = ((dirRelPathsKids rel cs).filter (fun x => decide (x = d))).length) ?_ ?_ ?_
  · intro rel d
    simp [kids_nil, dirPaths_nil]
  · intro n ct rb rest rel ih d
    rw [kids_cons_file, dirPaths_cons_file, List.filter_cons]
    simpa using ih d
  · intro n cs rest rel ihc ihr d
    rw [kids_cons_dir, dirPaths_cons_dir]
    by_cases hdd : rel ++ [n] = d
    · subst hdd
      simp [List.filter_cons, List.filter_append, ihc, ihr]
    · simp [List.filter_cons, List.filter_append, hdd, ihc d, ihr d]

theorem kids_dir_mem (root : FsPath) :
    ∀ (cs : List (String × FsNode)) (rel : List String),
      ∀ e ∈ getAllFilesKids root rel cs, e.isDirectory = true →
        e.relativePath ∈ dirRelPathsKids rel cs := by
  refine kidsRec (fun cs rel => ∀ e ∈ getAllFilesKids root rel cs,
    e.isDirectory = true → e.relativePath ∈ dirRelPathsKids rel cs) ?_ ?_ ?_
  · intro rel e he
    rw [kids_nil] at he
    cases he
  · intro n ct rb rest rel ih e he hdir
    rw [kids_cons_file] at he
    rw [dirPaths_cons_file]
    rcases List.mem_cons.mp he with h | h
    · subst h
      exact Bool.noConfusion hdir
    · exact ih e h hdir
  · intro n cs rest rel ihc ihr e he hdir
    rw [kids_cons_dir] at he
    rw [dirPaths_cons_dir]
    rcases List.mem_append.mp he with h | h
    · rcases List.mem_cons.mp h with h' | h'
      · subst h'
        simp
      · exact List.mem_cons_of_mem _ (List.mem_append.mpr
          (Or.inl (ihc e h' hdir)))
    · exact List.mem_cons_of_mem _ (List.mem_append.mpr (Or.inr (ihr e h hdir)))

theorem kids_dir_precede (root : FsPath) (good : String → Bool) :
    ∀ (cs : List (String × FsNode)) (rel : List String),
      wfNode good (.dir cs) = true →
      ∀ d ∈ dirRelPathsKids rel cs,
        ∃ pre post,
          getAllFilesKids root rel cs = pre ++ ⟨childAbs root d, d, true⟩ :: post ∧
          ∀ e ∈ pre, ¬ isUnder d e.relativePath := by
  refine kidsRec (fun cs rel => wfNode good (.dir cs) = true →
    ∀ d ∈ dirRelPathsKids rel cs,
      ∃ pre post,
        getAllFilesKids root rel cs = pre ++ ⟨childAbs root d, d, true⟩ :: post ∧
        ∀ e ∈ pre, ¬ isUnder d e.relativePath) ?_ ?_ ?_
  · intro rel _ d hd'
    rw [dirPaths_nil] at hd'
    cases hd'
  · intro n ct rb rest rel ih h d hd'
    rw [dirPaths_cons_file] at hd'
    obtain ⟨pre, post, heq, hpre⟩ := ih (wfNode_rest h) d hd'
    refine ⟨⟨childAbs root (rel ++ [n]), rel ++ [n], false⟩ :: pre, post, ?_, ?_⟩
    · rw [kids_cons_file, heq]
      rfl
    · intro e he
      rcases List.mem_cons.mp he with h' | h'
      · subst h'
        obtain ⟨m, t, hmt, hmm⟩ := dirPaths_shape rest rel d hd'
        rintro ⟨⟨u, hu⟩, _⟩
        rw [hmt] at hu
        simp only [List.append_assoc, List.cons_append, List.append_cancel_left_eq,
          List.cons.injEq] at hu
        exact (wfNode_head_fresh h m hmm) hu.1.symm
      · exact hpre e h'
  · intro n cs rest rel ihc ihr h d hd'
    rw [dirPaths_cons_dir] at hd'
    rcases List.mem_cons.mp hd' with hhead | htail
    · subst hhead
      refine ⟨[], getAllFilesKids root (rel ++ [n]) cs ++ getAllFilesKids root rel rest,
        ?_, by simp⟩
      rw [kids_cons_dir]
      rfl
    · rcases List.mem_append.mp htail with hA | hB
      · obtain ⟨pre, post, heq, hpre⟩ := ihc (wfNode_child h) d hA
        refine ⟨⟨childAbs root (rel ++ [n]), rel ++ [n], true⟩ :: pre,
          post ++ getAllFilesKids root rel rest, ?_, ?_⟩
        · rw [kids_cons_dir, heq]
          simp
        · intro e he
          rcases List.mem_cons.mp he with h' | h'
          · subst h'
            obtain ⟨m, t, hmt, _⟩ := dirPaths_shape cs (rel ++ [n]) d hA
            rintro ⟨⟨u, hu⟩, _⟩
            rw [hmt] at hu
            have := congrArg List.length hu
            simp at this
          · exact hpre e h'
      · obtain ⟨pre, post, heq, hpre⟩ := ihr (wfNode_rest h) d hB
        obtain ⟨m, t, hmt, hmm⟩ := dirPaths_shape rest rel d hB
        refine ⟨(⟨childAbs root (rel ++ [n]), rel ++ [n], true⟩ ::
            getAllFilesKids root (rel ++ [n]) cs) ++ pre, post, ?_, ?_⟩
        · rw [kids_cons_dir, heq]
          simp
        · intro e he
          rcases List.mem_append.mp he with h' | h'
          · have hshape : ∃ t', e.relativePath = rel ++ n :: t' := by
              rcases List.mem_cons.mp h' with h'' | h''
              · subst h''
                exact ⟨[], rfl⟩
              · obtain ⟨⟨m', t', ht'⟩, _⟩ := kids_rel_shape root cs (rel ++ [n]) e h''
                exact ⟨m' :: t', by rw [ht']; simp⟩
            obtain ⟨t', ht'⟩ := hshape
            rintro ⟨⟨u, hu⟩, _⟩
            rw [ht', hmt] at hu
            simp only [List.append_assoc, List.cons_append, List.append_cancel_left_eq,
              List.cons.injEq] at hu
            exact (wfNode_head_fresh h m hmm) hu.1.symm
          · exact hpre e h'

/-- C8: for a wellformed tree (distinct sibling names), the enumeration never
lists the root itself, lists every strict subdirectory exactly once as a
directory Entry (and only those), and places each directory's Entry before
every Entry lying strictly inside that directory. -/
theorem claim_c8_enumeration (root : FsPath) (tree : FsNode)
    (hwf : wfNode (fun _ => true) tree = true) :
    (∀ e ∈ getAllFiles root tree, e.relativePath ≠ []) ∧
    (∀ e ∈ getAllFiles root tree, e.isDirectory = true →
      e.relativePath ∈ dirRelPaths tree) ∧
    (∀ d ∈ dirRelPaths tree,
      ((getAllFiles root tree).filter
        (fun e => e.isDirectory && decide (e.relativePath = d))).length = 1) ∧
    (∀ d ∈ dirRelPaths tree,
      ∃ pre post,
        getAllFiles root tree = pre ++ ⟨childAbs root d, d, true⟩ :: post ∧
        ∀ e ∈ pre, ¬ isUnder d e.relativePath) := by
  cases tree with
  | file ct rb =>
    have h1 : getAllFiles root (.file ct rb) = [] := by
      simp [getAllFiles, getAllFilesNode]
    have h2 : dirRelPaths (.file ct rb) = [] := by
      simp [dirRelPaths, dirRelPathsNode]
    rw [h1, h2]
    exact ⟨by simp, by simp, by simp, by simp⟩
  | dir cs =>
    have hg : getAllFiles root (.dir cs) = getAllFilesKids root [] cs := by
      simp [getAllFiles, getAllFilesNode]
    have hdp : dirRelPaths (.dir cs) = dirRelPathsKids [] cs := by
      simp [dirRelPaths, dirRelPathsNode]
    rw [hg, hdp]
    refine ⟨?_, ?_, ?_, ?_⟩
    · intro e he
      obtain ⟨⟨n, t, hnt⟩, _⟩ := kids_rel_shape root cs [] e he
      rw [hnt]
      simp
    · exact kids_dir_mem root cs []
    · intro d hd'
      rw [kids_dir_filter root cs [] d]
      exact filter_eq_length_one (dirPaths_nodup (fun _ => true) cs [] hwf) hd'
    · exact kids_dir_precede root (fun _ => true) cs [] hwf

/-- C8 (witness): in a concrete enumeration the subdirectory `src` appears
exactly once as a directory Entry. -/
theorem claim_c8_enumeration_witness :
    ((getAllFiles ⟨true, ["r"]⟩
      (.dir [("src", .dir [("a.txt", .file "A" true)]), ("empty", .dir [])])).filter
      (fun e => e.isDirectory && decide (e.relativePath = ["src"]))).length = 1 := by
  have h := claim_c8_enumeration ⟨true, ["r"]⟩
    (.dir [("src", .dir [("a.txt", .file "A" true)]), ("empty", .dir [])])
    (by decide)
  exact h.2.2.1 ["src"] (by decide)

theorem lookupNode_append (a : List String) :
    ∀ (t : FsNode) (b : List String),
      lookupNode t (a ++ b) = (lookupNode t a).bind (fun u => lookupNode u b) := by
  induction a with
  | nil => intro t b; simp [lookupNode]
  | cons n as ih =>
    intro t b
    cases t with
    | file ct rb => simp [lookupNode]
    | dir cs =>
      rw [List.cons_append]
      cases hf : cs.find? (fun c => decide (c.1 = n)) with
      | none => simp [lookupNode, hf]
      | some c => simp [lookupNode, hf, ih c.2 b]

theorem find_of_nodup {cs : List (String × FsNode)} {n : String} {c : FsNode}
    (hnd : namesNodup (cs.map Prod.fst) = true) (hmem : (n, c) ∈ cs) :
    cs.find? (fun x => decide (x.1 = n)) = some (n, c) := by
  induction cs with
  | nil => cases hmem
  | cons c0 rest ih =>
    obtain ⟨m, cm⟩ := c0
    rw [List.map_cons] at hnd
    have hparts := namesNodup_cons hnd
    rcases List.mem_cons.mp hmem with h | h
    · injection h with h1 h2
      subst h1
      subst h2
      rw [List.find?_cons_of_pos _ (by simp)]
    · by_cases hmn : m = n
      · exfalso
        subst hmn
        exact hparts.1 m (List.mem_map_of_mem Prod.fst h) rfl
      · rw [List.find?_cons_of_neg _ (by simp [hmn])]
        exact ih hparts.2 h

theorem lookupNode_child {tree : FsNode} {rel : List String}
    {cs : List (String × FsNode)} {n : String} {c : FsNode}
    (hl : lookupNode tree rel = some (.dir cs))
    (hnd : namesNodup (cs.map Prod.fst) = true) (hmem : (n, c) ∈ cs) :
    lookupNode tree (rel ++ [n]) = some c := by
  rw [lookupNode_append rel tree [n], hl]
  simp [lookupNode, find_of_nodup hnd hmem]

theorem allReadableKids_cons {n : String} {c : FsNode}
    {cs : List (String × FsNode)} (h : allReadableKids ((n, c) :: cs) = true) :
    allReadable c = true ∧ allReadableKids cs = true := by
  unfold allReadableKids at h
  rw [Bool.and_eq_true] at h
  exact h

theorem extractAll_append (a b : List ZipEntry) :
    extractAllFiles (a ++ b) = extractAllFiles a ++ extractAllFiles b := by
  simp [extractAllFiles, List.filter_append]

theorem buildLoop_ok (tree : FsNode) (folderAbs : FsPath) (cn : Option String)
    (hG hGi : Bool) (iR : Option (List IgnoreRule)) :
    ∀ (l : List Entry),
      (∀ e ∈ l, e.isDirectory = true ∨ ∃ c, fsRead tree e.relativePath = Except.ok c) →
      ∀ i processed skipped acc,
        buildLoop tree folderAbs "with" cn "include_all" hG hGi iR (fun _ => false)
            l i processed skipped acc
          = .ok (acc.reverse ++ l.map (entryZip tree folderAbs cn),
              processed + l.length, skipped) := by
  intro l
  induction l with
  | nil =>
    intro _ i p s acc
    simp [buildLoop]
  | cons e rest ih =>
    intro hl i p s acc
    have hrest := fun e' he' => hl e' (List.mem_cons_of_mem _ he')
    have hg : (decide (("include_all" : String) ≠ "include_all")) = false := by decide
    have harith : p + 1 + rest.length = p + (rest.length + 1) := by omega
    by_cases hdir : e.isDirectory = true
    · simp only [buildLoop, hg, Bool.false_and, Bool.false_eq_true, if_false, hdir,
        if_true]
      rw [ih hrest (i + 1) (p + 1) s _, List.reverse_cons, harith]
      simp [entryZip, hdir]
    · rcases hl e (List.mem_cons_self e rest) with h | ⟨c, hc⟩
      · exact absurd h hdir
      · rw [Bool.not_eq_true] at hdir
        have hflat : (decide (("with" : String) = "flat")) = false := by decide
        simp only [buildLoop, hg, Bool.false_and, Bool.false_eq_true, if_false, hdir,
          hc, hflat]
        rw [ih hrest (i + 1) (p + 1) s _, List.reverse_cons, harith]
        simp [entryZip, hdir, hc]

theorem extractAll_cons_file (z : ZipEntry) (l : List ZipEntry)
    (h : z.isDir = false) :
    extractAllFiles (z :: l) = (z.name, z.content) :: extractAllFiles l := by
  simp [extractAllFiles, h]

theorem extractAll_cons_dir (z : ZipEntry) (l : List ZipEntry)
    (h : z.isDir = true) :
    extractAllFiles (z :: l) = extractAllFiles l := by
  simp [extractAllFiles, h]

theorem fileListKids_nil (rel : List String) : fileListKids rel [] = [] := by
  simp [fileListKids]

theorem fileListKids_cons_file (rel : List String) (n ct : String) (rb : Bool)
    (rest : List (String × FsNode)) :
    fileListKids rel ((n, .file ct rb) :: rest)
      = (rel ++ [n], ct, rb) :: fileListKids rel rest := by
  simp [fileListKids, fileListNode]

theorem fileListKids_cons_dir (rel : List String) (n : String)
    (cs rest : List (String × FsNode)) :
    fileListKids rel ((n, .dir cs) :: rest)
      = fileListKids (rel ++ [n]) cs ++ fileListKids rel rest := by
  simp [fileListKids, fileListNode]

theorem c2Main (tree : FsNode) (root : FsPath) (habs : root.abs = true)
    (hroot : ∀ s ∈ root.segs, canonicalSeg s) :
    ∀ (cs : List (String × FsNode)) (rel : List String),
      (∀ n c, (n, c) ∈ cs → lookupNode tree (rel ++ [n]) = some c) →
      wfNode goodSeg (.dir cs) = true →
      allReadableKids cs = true →
      (∀ s ∈ rel, goodSeg s = true) →
      (∀ e ∈ getAllFilesKids root rel cs,
        e.isDirectory = true ∨ ∃ c, fsRead tree e.relativePath = Except.ok c) ∧
      extractAllFiles ((getAllFilesKids root rel cs).map (entryZip tree root none))
        = (fileListKids rel cs).map (fun f => (f.1, f.2.1)) := by
  refine kidsRec (fun cs rel =>
    (∀ n c, (n, c) ∈ cs → lookupNode tree (rel ++ [n]) = some c) →
    wfNode goodSeg (.dir cs) = true →
    allReadableKids cs = true →
    (∀ s ∈ rel, goodSeg s = true) →
    (∀ e ∈ getAllFilesKids root rel cs,
      e.isDirectory = true ∨ ∃ c, fsRead tree e.relativePath = Except.ok c) ∧
    extractAllFiles ((getAllFilesKids root rel cs).map (entryZip tree root none))
      = (fileListKids rel cs).map (fun f => (f.1, f.2.1))) ?_ ?_ ?_
  · intro rel _ _ _ _
    rw [kids_nil, fileListKids_nil]
    exact ⟨fun e he => absurd he (List.not_mem_nil e), by simp [extractAllFiles]⟩
  · intro n ct rb rest rel ih hfind hwf hread hrel
    have hlook : lookupNode tree (rel ++ [n]) = some (.file ct rb) :=
      hfind n _ (List.mem_cons_self _ _)
    have hrb : rb = true := by
      have := (allReadableKids_cons hread).1
      simpa [allReadable] using this
    subst hrb
    have hfs : fsRead tree (rel ++ [n]) = Except.ok ct := by
      unfold fsRead
      rw [hlook]
    have hgoodn : goodSeg n = true := wfNode_head_good hwf
    have hrel' : ∀ s ∈ rel ++ [n], goodSeg s = true := by
      intro s hs
      rcases List.mem_append.mp hs with h | h
      · exact hrel s h
      · rw [List.mem_singleton] at h
        subst h
        exact hgoodn
    have hpp : processPath "with" none root (childAbs root (rel ++ [n])) = rel ++ [n] :=
      processPath_under "with" none root (rel ++ [n]) habs hroot hrel' (by simp)
    obtain ⟨ihA, ihB⟩ := ih (fun m c hm => hfind m c (List.mem_cons_of_mem _ hm))
      (wfNode_rest hwf) (allReadableKids_cons hread).2 hrel
    rw [kids_cons_file, fileListKids_cons_file]
    constructor
    · intro e he
      rcases List.mem_cons.mp he with h | h
      · subst h
        exact Or.inr ⟨ct, hfs⟩
      · exact ihA e h
    · rw [List.map_cons]
      have hfz : entryZip tree root none
          ⟨childAbs root (rel ++ [n]), rel ++ [n], false⟩
          = ⟨rel ++ [n], false, ct⟩ := by
        simp [entryZip, hpp, hfs]
      rw [hfz, extractAll_cons_file _ _ rfl, List.map_cons, ihB]
  · intro n cs rest rel ihc ihr hfind hwf hread hrel
    have hlook : lookupNode tree (rel ++ [n]) = some (.dir cs) :=
      hfind n _ (List.mem_cons_self _ _)
    have hwfc : wfNode goodSeg (.dir cs) = true := wfNode_child hwf
    have hfind' : ∀ m c, (m, c) ∈ cs →
        lookupNode tree ((rel ++ [n]) ++ [m]) = some c :=
      fun m c hm => lookupNode_child hlook (wfNode_parts hwfc).1 hm
    have hgoodn : goodSeg n = true := wfNode_head_good hwf
    have hrel' : ∀ s ∈ rel ++ [n], goodSeg s = true := by
      intro s hs
      rcases List.mem_append.mp hs with h | h
      · exact hrel s h
      · rw [List.mem_singleton] at h
        subst h
        exact hgoodn
    have hreadc : allReadableKids cs = true := by
      have := (allReadableKids_cons hread).1
      simpa [allReadable] using this
    obtain ⟨icA, icB⟩ := ihc hfind' hwfc hreadc hrel'
    obtain ⟨irA, irB⟩ := ihr (fun m c hm => hfind m c (List.mem_cons_of_mem _ hm))
      (wfNode_rest hwf) (allReadableKids_cons hread).2 hrel
    rw [kids_cons_dir, fileListKids_cons_dir]
    constructor
    · intro e he
      rcases List.mem_append.mp he with h | h
      · rcases List.mem_cons.mp h with h' | h'
        · subst h'
          exact Or.inl rfl
        · exact icA e h'
      · exact irA e h
    · rw [List.map_append, List.map_cons, extractAll_append,
        extractAll_cons_dir _ _ (by simp [entryZip]), icB, irB, List.map_append]

/-- C2 (counterexample): a root containing the file `a.txt` and the empty
directory `empty` builds into an archive with a folder entry for `empty`,
but extract-all filters directory entries out and creates directories only
as parents of written files, so `empty` is not recreated at the extraction
destination. -/
theorem claim_c2_counterexample :
    dirRelPaths (.dir [("a.txt", .file "x" true), ("empty", .dir [])]) = [["empty"]] ∧
    createZipFromFolderRun (.dir [("a.txt", .file "x" true), ("empty", .dir [])])
        ⟨true, ["r"]⟩ "with" none "include_all" (fun _ => false)
      = .ok ([⟨["a.txt"], false, "x"⟩, ⟨["empty"], true, ""⟩], 2, 0) ∧
    dirExistsAfterExtract [⟨["a.txt"], false, "x"⟩, ⟨["empty"], true, ""⟩]
      ["empty"] = false := by
  decide

/-- C2 (amended): for a wellformed, fully readable tree, the archive built
with the `with` naming mode and `include_all` Git mode succeeds with one
archive entry per enumerated Entry, and extracting it writes exactly the
original relative file set with the original contents, in enumeration order;
empty directories, as the concrete run above shows, are not recreated. -/
theorem claim_c2_files_roundtrip (tree : FsNode) (root : FsPath)
    (habs : root.abs = true) (hroot : ∀ s ∈ root.segs, canonicalSeg s)
    (hwf : wfNode goodSeg tree = true) (hread : allReadable tree = true) :
    createZipFromFolderRun tree root "with" none "include_all" (fun _ => false)
      = .ok ((getAllFiles root tree).map (entryZip tree root none),
          (getAllFiles root tree).length, 0) ∧
    extractAllFiles ((getAllFiles root tree).map (entryZip tree root none))
      = (fileList tree).map (fun f => (f.1, f.2.1)) := by
  cases tree with
  | file ct rb =>
    have h1 : getAllFiles root (.file ct rb) = [] := by
      simp [getAllFiles, getAllFilesNode]
    rw [h1]
    constructor
    · unfold createZipFromFolderRun
      dsimp only
      rw [h1]
      simp [buildLoop]
    · simp [extractAllFiles, fileList]
  | dir cs =>
    have hfind : ∀ n c, (n, c) ∈ cs →
        lookupNode (FsNode.dir cs) ([] ++ [n]) = some c := by
      intro n c hm
      exact lookupNode_child rfl (wfNode_parts hwf).1 hm
    have hreadk : allReadableKids cs = true := by
      simpa [allReadable] using hread
    obtain ⟨hA, hB⟩ := c2Main (FsNode.dir cs) root habs hroot cs []
      hfind hwf hreadk (by simp)
    have hg : getAllFiles root (.dir cs) = getAllFilesKids root [] cs := by
      simp [getAllFiles, getAllFilesNode]
    rw [hg]
    constructor
    · unfold createZipFromFolderRun
      dsimp only
      have hir : ((decide (("include_all" : String) = "exclude_git")
          || decide (("include_all" : String) = "respect_gitignore"))
          && (lookupNode (FsNode.dir cs) [".gitignore"]).isSome) = false := by
        simp
      rw [hir]
      simp only [Bool.false_eq_true, if_false]
      rw [hg, buildLoop_ok (FsNode.dir cs) root none _ _ none
        (getAllFilesKids root [] cs) hA 0 0 0 []]
      simp
    · rw [hB]
      simp [fileList]

/-- C2 (witness): the amended round-trip at a concrete two-level tree. -/
theorem claim_c2_files_roundtrip_witness :
    createZipFromFolderRun (.dir [("src", .dir [("a.txt", .file "hello" true)])])
        ⟨true, ["r"]⟩ "with" none "include_all" (fun _ => false)
      = .ok ((getAllFiles ⟨true, ["r"]⟩
            (.dir [("src", .dir [("a.txt", .file "hello" true)])])).map
            (entryZip (.dir [("src", .dir [("a.txt", .file "hello" true)])])
              ⟨true, ["r"]⟩ none),
          (getAllFiles ⟨true, ["r"]⟩
            (.dir [("src", .dir [("a.txt", .file "hello" true)])])).length, 0) ∧
    extractAllFiles ((getAllFiles ⟨true, ["r"]⟩
          (.dir [("src", .dir [("a.txt", .file "hello" true)])])).map
          (entryZip (.dir [("src", .dir [("a.txt", .file "hello" true)])])
            ⟨true, ["r"]⟩ none))
      = (fileList (.dir [("src", .dir [("a.txt", .file "hello" true)])])).map
          (fun f => (f.1, f.2.1)) :=
  claim_c2_files_roundtrip (.dir [("src", .dir [("a.txt", .file "hello" true)])])
    ⟨true, ["r"]⟩ rfl (by decide) (by decide) (by decide)

/-- C10 (witness): two files produce `out/a.txt` and `out/b.txt` inside the
common folder named after `out.zip`; a single file is stored as `a.txt` at
the archive root. -/
theorem claim_c10_common_folder_witness :
    createZipFromFilesRun
        [⟨⟨true, ["d", "a.txt"]⟩, "A", true⟩, ⟨⟨true, ["d", "b.txt"]⟩, "B", true⟩]
        ⟨true, ["d", "out.zip"]⟩ (fun _ => false)
      = .ok [⟨["out", "a.txt"], false, "A"⟩, ⟨["out", "b.txt"], false, "B"⟩] ∧
    createZipFromFilesRun [⟨⟨true, ["d", "a.txt"]⟩, "A", true⟩]
        ⟨true, ["d", "out.zip"]⟩ (fun _ => false)
      = .ok [⟨["a.txt"], false, "A"⟩] := by
  constructor
  · rw [(claim_c10_common_folder _ _).1 (by decide)]
    decide
  · rw [(claim_c10_common_folder _ _).2 (by decide)]
    decide

end GitZip
